import Mathlib

set_option maxHeartbeats 1000000

/-! Verification development for the mzdata binary peak-array codec
(src/spectrum/bindata/conversion.rs) and for the Collator ordering
primitive of the averaging pipeline.

Modelling conventions: IEEE-754 floating point values are represented by
their bit patterns (natural numbers below 256^8 for f64, below 256^4 for
f32); raw byte buffers are lists of natural numbers; i32 values are
integers serialized in two's complement.  Floating point arithmetic
itself is outside the embedding. -/

inductive ArrayType where
  | MZArray
  | IntensityArray
  | ChargeArray
  | NonStandard (name : String)
  deriving DecidableEq

inductive BinaryDataArrayType where
  | Unknown
  | Float64
  | Float32
  | Int64
  | Int32
  | ASCII
  deriving DecidableEq

/-- Modelled from the spec: the element byte width table of
BinaryDataArrayType (the encodings module is not under src/): 32/64-bit
floats and signed integers, ASCII strings one byte per element. -/
def BinaryDataArrayType.size_of : BinaryDataArrayType → Nat
  | .Unknown => 1
  | .Float64 => 8
  | .Float32 => 4
  | .Int64 => 8
  | .Int32 => 4
  | .ASCII => 1

inductive BinaryCompressionType where
  | NoCompression
  | Zlib
  | NumpressLinear
  | NumpressSLOF
  | NumpressPIC
  | Decoded
  deriving DecidableEq

/-- Modelled from the spec: ArrayRetrievalError (the encodings module is
not under src/) covers a missing array, a width/length mismatch of a
byte buffer against the declared element type, and a compression scheme
the decoder cannot reverse. -/
inductive ArrayRetrievalError where
  | NotFound (t : ArrayType)
  | LengthMismatch
  | UnsupportedCompression
  deriving DecidableEq

/-- Modelled from the spec: a DataArray is one named array holding raw
bytes plus the declared element type and compression tag.  The unit
annotation field carries no algorithmic content and is omitted. -/
structure DataArray where
  name : ArrayType
  dtype : BinaryDataArrayType
  compression : BinaryCompressionType
  data : List Nat
  deriving DecidableEq

/-- Modelled from the spec: DataArray::from_name_type_size allocates an
empty array with the given name and element type (the size argument only
reserves capacity); the compression tag starts as NoCompression. -/
def DataArray.from_name_type_size (name : ArrayType) (dtype : BinaryDataArrayType)
    (size : Nat) : DataArray :=
  { name := name, dtype := dtype, compression := BinaryCompressionType.NoCompression,
    data := [] }

/-- Little-endian byte serialization of a value at width w, mirroring
Rust to_le_bytes on the value's bit pattern. -/
def leBytes (w v : Nat) : List Nat :=
  (List.range w).map (fun i => v / 256 ^ i % 256)

/-- Little-endian reassembly of a byte buffer into a value, mirroring
Rust from_le_bytes. -/
def fromLe (bs : List Nat) : Nat :=
  bs.foldr (fun b acc => b + 256 * acc) 0

/-- Reinterpretation of a byte buffer as consecutive little-endian
elements of width w. -/
def decodeChunks (w : Nat) (bs : List Nat) : List Nat :=
  (List.range (bs.length / w)).map (fun i => fromLe ((bs.drop (i * w)).take w))

/-- Modelled from the spec: the DataArray decode path (the array module
is not under src/).  A Decoded buffer is reinterpreted directly at the
declared element width, failing with LengthMismatch when the byte count
is not a multiple of that width; reversing an actual compression scheme
is an external algorithm and is reported as unsupported here. -/
def DataArray.decode (a : DataArray) : Except ArrayRetrievalError (List Nat) :=
  match a.compression with
  | .Decoded =>
      if a.data.length % a.dtype.size_of = 0 then
        .ok (decodeChunks a.dtype.size_of a.data)
      else
        .error .LengthMismatch
  | _ => .error .UnsupportedCompression

/-- Modelled from the spec: a BinaryArrayMap is a keyed collection of
DataArrays with unique ArrayType keys and no iteration order
guarantee. -/
structure BinaryArrayMap where
  entries : List DataArray
  deriving DecidableEq

def BinaryArrayMap.new : BinaryArrayMap := { entries := [] }

/-- Modelled from the spec: BinaryArrayMap::add inserts a DataArray,
replacing any entry already stored under the same ArrayType key. -/
def BinaryArrayMap.add (m : BinaryArrayMap) (d : DataArray) : BinaryArrayMap :=
  { entries := m.entries.filter (fun e => decide (e.name ≠ d.name)) ++ [d] }

def BinaryArrayMap.get (m : BinaryArrayMap) (t : ArrayType) : Option DataArray :=
  m.entries.find? (fun e => decide (e.name = t))

def BinaryArrayMap.has_array (m : BinaryArrayMap) (t : ArrayType) : Bool :=
  m.entries.any (fun e => decide (e.name = t))

/-- Modelled from the spec: BinaryArrayMap::mzs retrieves and decodes
the m/z array, failing with a retrieval error when it is absent or
malformed.  Elements are returned at the array's declared width;
cross-width numeric conversion is float arithmetic and is not
modelled. -/
def BinaryArrayMap.mzs (m : BinaryArrayMap) : Except ArrayRetrievalError (List Nat) :=
  match m.get ArrayType.MZArray with
  | none => .error (.NotFound ArrayType.MZArray)
  | some a => a.decode

/-- Modelled from the spec: BinaryArrayMap::intensities retrieves and
decodes the intensity array. -/
def BinaryArrayMap.intensities (m : BinaryArrayMap) : Except ArrayRetrievalError (List Nat) :=
  match m.get ArrayType.IntensityArray with
  | none => .error (.NotFound ArrayType.IntensityArray)
  | some a => a.decode

/-- Two's complement reading of a w-byte little-endian chunk. -/
def interpSigned (w c : Nat) : Int :=
  if c < 256 ^ w / 2 then (c : Int) else (c : Int) - ((256 ^ w : Nat) : Int)

def interpScalar : BinaryDataArrayType → Nat → Int
  | .Int32, c => interpSigned 4 c
  | .Int64, c => interpSigned 8 c
  | _, c => (c : Int)

/-- Modelled from the spec: BinaryArrayMap::charges retrieves and
decodes the charge state array as signed integers. -/
def BinaryArrayMap.charges (m : BinaryArrayMap) : Except ArrayRetrievalError (List Int) :=
  match m.get ArrayType.ChargeArray with
  | none => .error (.NotFound ArrayType.ChargeArray)
  | some a =>
      match a.decode with
      | .error e => .error e
      | .ok cs => .ok (cs.map (interpScalar a.dtype))

/-- Two's complement little-endian bytes of an i32, mirroring Rust
i32::to_le_bytes. -/
def int32_le_bytes (z : Int) : List Nat :=
  leBytes 4 ((z % 4294967296).toNat)

@[ext]
structure CentroidPeak where
  mz : Nat
  intensity : Nat
  index : Nat
  deriving DecidableEq

@[ext]
structure DeconvolutedPeak where
  neutral_mass : Nat
  intensity : Nat
  charge : Int
  index : Nat
  deriving DecidableEq

def neutralMassMask (z : Int) : Nat :=
  (z % 18446744073709551616).toNat

/-- Modelled from the spec: crate::utils::neutral_mass is not under
src/.  The spec fixes only that neutral mass is derived from the (m/z,
charge) pair by the standard neutral-mass relation and that the
derivation is undone by the m/z accessor up to float precision; the
IEEE-754 arithmetic realizing it is outside the embedding.  It is
modelled as a fixed charge-indexed bijection on 64-bit patterns, which
is the property the claims depend on. -/
def neutralMass (mz : Nat) (z : Int) : Nat :=
  mz ^^^ neutralMassMask z

/-- Modelled from the spec: the mzpeaks DeconvolutedPeak::mz accessor
recovers m/z from the stored neutral mass and charge by inverting the
standard neutral-mass relation (exact inverse in this model). -/
def DeconvolutedPeak.mz (p : DeconvolutedPeak) : Nat :=
  p.neutral_mass ^^^ neutralMassMask p.charge

inductive ArraysAvailable where
  | Unknown
  | Ok
  | MissingArrays (missing : List ArrayType)
  deriving DecidableEq

/-- The has_arrays_for pre-check of the BuildFromArrayMap trait, taking
the implementing type's arrays_required list as its first argument (the
trait default for arrays_required is none). -/
def hasArraysForReq (req : Option (List ArrayType)) (arrays : BinaryArrayMap) :
    ArraysAvailable :=
  match req with
  | some arrays_required =>
      let missing := arrays_required.filter (fun t => !(arrays.has_array t))
      if missing.length > 0 then
        ArraysAvailable.MissingArrays missing
      else
        ArraysAvailable.Ok
  | none => ArraysAvailable.Unknown

/-- BuildFromArrayMap::arrays_required as overridden by the CentroidPeak
impl: m/z and intensity. -/
def CentroidPeak.arrays_required : Option (List ArrayType) :=
  some [ArrayType.MZArray, ArrayType.IntensityArray]

def CentroidPeak.arrays_included : Option (List ArrayType) :=
  some [ArrayType.MZArray, ArrayType.IntensityArray]

/-- BuildFromArrayMap::arrays_required for DeconvolutedPeak: the impl
defines only try_from_arrays and never overrides this method, so the
trait default none applies. -/
def DeconvolutedPeak.arrays_required : Option (List ArrayType) :=
  none

def DeconvolutedPeak.arrays_included : Option (List ArrayType) :=
  some [ArrayType.MZArray, ArrayType.IntensityArray, ArrayType.ChargeArray]

def CentroidPeak.has_arrays_for (arrays : BinaryArrayMap) : ArraysAvailable :=
  hasArraysForReq CentroidPeak.arrays_required arrays

def DeconvolutedPeak.has_arrays_for (arrays : BinaryArrayMap) : ArraysAvailable :=
  hasArraysForReq DeconvolutedPeak.arrays_required arrays

/-- BuildArrayMapFrom::as_arrays for CentroidPeak: one freshly allocated
DataArray per field, tagged Decoded, populated by one pass over the
peaks appending each field's little-endian bytes. -/
def CentroidPeak.as_arrays (source : List CentroidPeak) : BinaryArrayMap :=
  let mz_array :=
    { DataArray.from_name_type_size ArrayType.MZArray BinaryDataArrayType.Float64
        (source.length * BinaryDataArrayType.Float64.size_of) with
      compression := BinaryCompressionType.Decoded }
  let intensity_array :=
    { DataArray.from_name_type_size ArrayType.IntensityArray BinaryDataArrayType.Float32
        (source.length * BinaryDataArrayType.Float32.size_of) with
      compression := BinaryCompressionType.Decoded }
  let mz_array :=
    { mz_array with data := source.foldl (fun d p => d ++ leBytes 8 p.mz) mz_array.data }
  let intensity_array :=
    { intensity_array with
      data := source.foldl (fun d p => d ++ leBytes 4 p.intensity) intensity_array.data }
  (BinaryArrayMap.new.add mz_array).add intensity_array

/-- BuildArrayMapFrom::as_arrays for DeconvolutedPeak: m/z is read back
through the mz accessor, intensity and charge are serialized at their
declared widths, all three arrays tagged Decoded. -/
def DeconvolutedPeak.as_arrays (source : List DeconvolutedPeak) : BinaryArrayMap :=
  let mz_array :=
    { DataArray.from_name_type_size ArrayType.MZArray BinaryDataArrayType.Float64
        (source.length * BinaryDataArrayType.Float64.size_of) with
      compression := BinaryCompressionType.Decoded }
  let intensity_array :=
    { DataArray.from_name_type_size ArrayType.IntensityArray BinaryDataArrayType.Float32
        (source.length * BinaryDataArrayType.Float32.size_of) with
      compression := BinaryCompressionType.Decoded }
  let charge_array :=
    { DataArray.from_name_type_size ArrayType.ChargeArray BinaryDataArrayType.Int32
        (source.length * BinaryDataArrayType.Int32.size_of) with
      compression := BinaryCompressionType.Decoded }
  let mz_array :=
    { mz_array with data := source.foldl (fun d p => d ++ leBytes 8 p.mz) mz_array.data }
  let intensity_array :=
    { intensity_array with
      data := source.foldl (fun d p => d ++ leBytes 4 p.intensity) intensity_array.data }
  let charge_array :=
    { charge_array with
      data := source.foldl (fun d p => d ++ int32_le_bytes p.charge) charge_array.data }
  ((BinaryArrayMap.new.add mz_array).add intensity_array).add charge_array

/-- BuildFromArrayMap::try_from_arrays for CentroidPeak: decode the m/z
and intensity arrays, zip them positionally and assign each peak its
zero-based position as a u32 index. -/
def CentroidPeak.try_from_arrays (arrays : BinaryArrayMap) :
    Except ArrayRetrievalError (List CentroidPeak) :=
  match arrays.mzs with
  | .error e => .error e
  | .ok mz_array =>
      match arrays.intensities with
      | .error e => .error e
      | .ok intensity_array =>
          .ok ((mz_array.zip intensity_array).enum.map
            (fun q => { mz := q.2.1, intensity := q.2.2, index := q.1 % 4294967296 }))

/-- BuildFromArrayMap::try_from_arrays for DeconvolutedPeak: decode the
m/z, intensity and charge arrays, zip them positionally, computing the
neutral mass from the decoded (m/z, charge) pair at each position and
assigning the position as a u32 index. -/
def DeconvolutedPeak.try_from_arrays (arrays : BinaryArrayMap) :
    Except ArrayRetrievalError (List DeconvolutedPeak) :=
  match arrays.mzs with
  | .error e => .error e
  | .ok mz_array =>
      match arrays.intensities with
      | .error e => .error e
      | .ok intensity_array =>
          match arrays.charges with
          | .error e => .error e
          | .ok charge_array =>
              .ok (((mz_array.zip intensity_array).zip charge_array).enum.map
                (fun q =>
                  { neutral_mass := neutralMass q.2.1.1 q.2.2,
                    intensity := q.2.1.2,
                    charge := q.2.2,
                    index := q.1 % 4294967296 }))

/-- BuildFromArrayMap::from_arrays default method: unwraps the result of
try_from_arrays; the panic on a retrieval error is modelled as none. -/
def CentroidPeak.from_arrays (arrays : BinaryArrayMap) : Option (List CentroidPeak) :=
  (CentroidPeak.try_from_arrays arrays).toOption

/-- BuildFromArrayMap::from_arrays default method for DeconvolutedPeak;
the panic on a retrieval error is modelled as none. -/
def DeconvolutedPeak.from_arrays (arrays : BinaryArrayMap) : Option (List DeconvolutedPeak) :=
  (DeconvolutedPeak.try_from_arrays arrays).toOption

/-- The infallible From conversion from a borrowed BinaryArrayMap into a
centroid peak collection: it unwraps the m/z and intensity accessors, so
a retrieval failure panics (modelled as none). -/
def centroidPeakSetFromMap (arrays : BinaryArrayMap) : Option (List CentroidPeak) :=
  match arrays.mzs with
  | .error _ => none
  | .ok mz_array =>
      match arrays.intensities with
      | .error _ => none
      | .ok intensity_array =>
          some ((mz_array.zip intensity_array).enum.map
            (fun q => { mz := q.2.1, intensity := q.2.2, index := q.1 % 4294967296 }))

/-- The infallible From conversion from a borrowed BinaryArrayMap into a
DeconvolutedPeakSet: it unwraps m/z and intensities and expects the
charge array, so a retrieval failure panics (modelled as none). -/
def deconvolutedPeakSetFromMap (arrays : BinaryArrayMap) : Option (List DeconvolutedPeak) :=
  match arrays.mzs with
  | .error _ => none
  | .ok mz_array =>
      match arrays.intensities with
      | .error _ => none
      | .ok intensity_array =>
          match arrays.charges with
          | .error _ => none
          | .ok charge_array =>
              some (((mz_array.zip intensity_array).zip charge_array).enum.map
                (fun q =>
                  { neutral_mass := neutralMass q.2.1.1 q.2.2,
                    intensity := q.2.1.2,
                    charge := q.2.2,
                    index := q.1 % 4294967296 }))

inductive CollatorError where
  | IndexBelowExpected
  | IncompleteStream
  deriving DecidableEq

/-- Modelled from the spec: the Collator state machine of §4.4 (the
spectrum utils module is not under src/): the next expected index plus a
pending map from indices to buffered items. -/
structure CollatorState (α : Type) where
  next_expected : Nat
  pending : List (Nat × α)

/-- Removal of the entry stored under key k from the pending map,
returning its item and the remaining map. -/
def Collator.popKey {α : Type} (k : Nat) : List (Nat × α) → Option (α × List (Nat × α))
  | [] => none
  | (i, x) :: rest =>
      if i = k then some (x, rest)
      else
        match Collator.popKey k rest with
        | none => none
        | some (y, r) => some (y, (i, x) :: r)

/-- Modelled from the spec: the drain loop of Collator step 2, emitting
buffered items while the pending map contains the next expected index.
The fuel argument bounds the iteration count by the pending size, which
the loop strictly decreases. -/
def Collator.drainAux {α : Type} : Nat → Nat → List (Nat × α) → List α × Nat × List (Nat × α)
  | 0, ne, pending => ([], ne, pending)
  | fuel + 1, ne, pending =>
      match Collator.popKey ne pending with
      | some (x, rest) =>
          let t := Collator.drainAux fuel (ne + 1) rest
          (x :: t.1, t.2)
      | none => ([], ne, pending)

def Collator.drain {α : Type} (ne : Nat) (pending : List (Nat × α)) :
    List α × Nat × List (Nat × α) :=
  Collator.drainAux pending.length ne pending

/-- Modelled from the spec: one Collator transition on a received
(index, item) pair: emit and drain when the index is the expected one,
buffer when it is ahead, and fail as a consistency error when it is
below the expected index. -/
def Collator.step {α : Type} (s : CollatorState α) (index : Nat) (item : α) :
    Except CollatorError (CollatorState α × List α) :=
  if index = s.next_expected then
    let t := Collator.drain (s.next_expected + 1) s.pending
    .ok ({ next_expected := t.2.1, pending := t.2.2 }, item :: t.1)
  else if s.next_expected < index then
    .ok ({ s with pending := (index, item) :: s.pending }, [])
  else
    .error CollatorError.IndexBelowExpected

/-- Processing of a whole input sequence from a given state, collecting
the emissions in order. -/
def Collator.run {α : Type} (s : CollatorState α) :
    List (Nat × α) → Except CollatorError (CollatorState α × List α)
  | [] => .ok (s, [])
  | (index, item) :: rest =>
      match Collator.step s index item with
      | .error e => .error e
      | .ok (s2, emitted) =>
          match Collator.run s2 rest with
          | .error e => .error e
          | .ok (s3, emitted2) => .ok (s3, emitted ++ emitted2)

/-- Modelled from the spec: Collator::collate consumes the input channel
until closure (the end of the list) and, when the pending map is
non-empty at closure, reports an incomplete-stream error instead of
truncating the output. -/
def Collator.collate {α : Type} (input : List (Nat × α)) : Except CollatorError (List α) :=
  match Collator.run { next_expected := 0, pending := [] } input with
  | .error e => .error e
  | .ok (s, emitted) =>
      if s.pending.isEmpty then .ok emitted else .error CollatorError.IncompleteStream


/-- Concatenated per-peak serialization, the functional reading of the
encoding loops in conversion.rs. -/
def serializeWith {β : Type} (enc : β → List Nat) : List β → List Nat
  | [] => []
  | p :: ps => enc p ++ serializeWith enc ps

theorem foldl_append_serializeWith {β : Type} (enc : β → List Nat) :
    ∀ (l : List β) (d : List Nat),
      l.foldl (fun acc p => acc ++ enc p) d = d ++ serializeWith enc l := by
  intro l
  induction l with
  | nil => intro d; simp [serializeWith]
  | cons p ps ih =>
      intro d
      simp only [List.foldl_cons, serializeWith]
      rw [ih, List.append_assoc]

theorem serializeWith_length {β : Type} (enc : β → List Nat) (w : Nat)
    (hlen : ∀ p, (enc p).length = w) :
    ∀ l : List β, (serializeWith enc l).length = l.length * w := by
  intro l
  induction l with
  | nil => simp [serializeWith]
  | cons p ps ih =>
      simp only [serializeWith, List.length_append, List.length_cons, hlen, ih]
      ring

theorem leBytes_length (w v : Nat) : (leBytes w v).length = w := by
  simp [leBytes]

theorem leBytes_succ (w v : Nat) :
    leBytes (w + 1) v = v % 256 :: leBytes w (v / 256) := by
  unfold leBytes
  rw [List.range_succ_eq_map]
  simp only [List.map_cons, List.map_map, pow_zero, Nat.div_one]
  congr 1
  apply List.map_congr_left
  intro i _
  simp only [Function.comp_apply]
  rw [Nat.div_div_eq_div_mul, ← pow_succ']

theorem fromLe_cons (b : Nat) (bs : List Nat) :
    fromLe (b :: bs) = b + 256 * fromLe bs := rfl

theorem fromLe_leBytes (w : Nat) : ∀ v : Nat, fromLe (leBytes w v) = v % 256 ^ w := by
  induction w with
  | zero => intro v; simp [leBytes, fromLe, Nat.mod_one]
  | succ w ih =>
      intro v
      rw [leBytes_succ, fromLe_cons, ih, pow_succ', Nat.mod_mul]

theorem decodeChunks_serializeWith_core {β : Type} (w : Nat) (enc : β → List Nat)
    (f : β → Nat) (hlen : ∀ p, (enc p).length = w) :
    ∀ l : List β, (∀ p ∈ l, fromLe (enc p) = f p) →
      (List.range l.length).map
          (fun i => fromLe (((serializeWith enc l).drop (i * w)).take w)) = l.map f := by
  intro l
  induction l with
  | nil => intro _; simp
  | cons p ps ih =>
      intro hval
      have hdrop : ∀ i : Nat, (serializeWith enc (p :: ps)).drop ((i + 1) * w)
          = (serializeWith enc ps).drop (i * w) := by
        intro i
        have h1 : (i + 1) * w = (enc p).length + i * w := by rw [hlen]; ring
        rw [serializeWith, h1, List.drop_append]
      show (List.range (ps.length + 1)).map _ = _
      rw [List.range_succ_eq_map]
      simp only [List.map_cons, List.map_map]
      refine congrArg₂ List.cons ?_ ?_
      · simp only [Nat.zero_mul, List.drop_zero, serializeWith]
        rw [List.take_left' (hlen p), hval p (List.mem_cons_self p ps)]
      · calc (List.range ps.length).map
              ((fun i => fromLe (((serializeWith enc (p :: ps)).drop (i * w)).take w))
                ∘ Nat.succ)
            = (List.range ps.length).map
                (fun i => fromLe (((serializeWith enc ps).drop (i * w)).take w)) := by
              apply List.map_congr_left
              intro i _
              simp only [Function.comp_apply, Nat.succ_eq_add_one]
              rw [hdrop i]
          _ = ps.map f := ih (fun q hq => hval q (List.mem_cons_of_mem p hq))

theorem decodeChunks_serializeWith {β : Type} (w : Nat) (hw : 0 < w)
    (enc : β → List Nat) (f : β → Nat) (hlen : ∀ p, (enc p).length = w)
    (l : List β) (hval : ∀ p ∈ l, fromLe (enc p) = f p) :
    decodeChunks w (serializeWith enc l) = l.map f := by
  unfold decodeChunks
  rw [serializeWith_length enc w hlen l, Nat.mul_div_cancel _ hw]
  exact decodeChunks_serializeWith_core w enc f hlen l hval

theorem decode_serializeWith {β : Type} (nm : ArrayType) (dt : BinaryDataArrayType)
    (hw : 0 < dt.size_of) (enc : β → List Nat) (f : β → Nat)
    (hlen : ∀ p, (enc p).length = dt.size_of)
    (l : List β) (hval : ∀ p ∈ l, fromLe (enc p) = f p) :
    DataArray.decode
        { name := nm, dtype := dt, compression := BinaryCompressionType.Decoded,
          data := serializeWith enc l }
      = .ok (l.map f) := by
  unfold DataArray.decode
  simp only
  rw [serializeWith_length enc dt.size_of hlen l]
  rw [if_pos (Nat.mul_mod_left _ _)]
  rw [decodeChunks_serializeWith dt.size_of hw enc f hlen l hval]

theorem neutralMassMask_lt (z : Int) : neutralMassMask z < 18446744073709551616 := by
  unfold neutralMassMask
  omega

theorem mz_lt_of_neutral_mass_lt (p : DeconvolutedPeak)
    (h : p.neutral_mass < 18446744073709551616) : p.mz < 18446744073709551616 := by
  have h64 : (18446744073709551616 : Nat) = 2 ^ 64 := by norm_num
  unfold DeconvolutedPeak.mz
  rw [h64]
  exact Nat.xor_lt_two_pow (h64 ▸ h) (h64 ▸ neutralMassMask_lt p.charge)

theorem neutralMass_mz (p : DeconvolutedPeak) :
    neutralMass p.mz p.charge = p.neutral_mass := by
  unfold neutralMass DeconvolutedPeak.mz
  rw [Nat.xor_assoc, Nat.xor_self, Nat.xor_zero]

theorem int32_le_bytes_length (z : Int) : (int32_le_bytes z).length = 4 := by
  unfold int32_le_bytes
  exact leBytes_length 4 _

theorem fromLe_int32_le_bytes (z : Int) :
    fromLe (int32_le_bytes z) = (z % 4294967296).toNat := by
  unfold int32_le_bytes
  rw [fromLe_leBytes]
  have hb : ((256 : Nat) ^ 4) = 4294967296 := by norm_num
  rw [hb]
  omega

theorem interpSigned_emod (z : Int) (h1 : -2147483648 ≤ z) (h2 : z < 2147483648) :
    interpSigned 4 ((z % 4294967296).toNat) = z := by
  unfold interpSigned
  have hb : ((256 : Nat) ^ 4) = 4294967296 := by norm_num
  rw [hb]
  split <;> omega

theorem centroid_as_arrays_entries (cs : List CentroidPeak) :
    (CentroidPeak.as_arrays cs).entries =
      [ { name := ArrayType.MZArray, dtype := BinaryDataArrayType.Float64,
          compression := BinaryCompressionType.Decoded,
          data := serializeWith (fun p => leBytes 8 p.mz) cs },
        { name := ArrayType.IntensityArray, dtype := BinaryDataArrayType.Float32,
          compression := BinaryCompressionType.Decoded,
          data := serializeWith (fun p => leBytes 4 p.intensity) cs } ] := by
  unfold CentroidPeak.as_arrays
  simp [BinaryArrayMap.add, BinaryArrayMap.new, DataArray.from_name_type_size,
    foldl_append_serializeWith]

theorem deconvoluted_as_arrays_entries (ds : List DeconvolutedPeak) :
    (DeconvolutedPeak.as_arrays ds).entries =
      [ { name := ArrayType.MZArray, dtype := BinaryDataArrayType.Float64,
          compression := BinaryCompressionType.Decoded,
          data := serializeWith (fun p => leBytes 8 p.mz) ds },
        { name := ArrayType.IntensityArray, dtype := BinaryDataArrayType.Float32,
          compression := BinaryCompressionType.Decoded,
          data := serializeWith (fun p => leBytes 4 p.intensity) ds },
        { name := ArrayType.ChargeArray, dtype := BinaryDataArrayType.Int32,
          compression := BinaryCompressionType.Decoded,
          data := serializeWith (fun p => int32_le_bytes p.charge) ds } ] := by
  unfold DeconvolutedPeak.as_arrays
  simp [BinaryArrayMap.add, BinaryArrayMap.new, DataArray.from_name_type_size,
    foldl_append_serializeWith]

theorem centroid_as_arrays_mzs (cs : List CentroidPeak)
    (h : ∀ p ∈ cs, p.mz < 18446744073709551616) :
    (CentroidPeak.as_arrays cs).mzs = .ok (cs.map (fun p => p.mz)) := by
  unfold BinaryArrayMap.mzs BinaryArrayMap.get
  rw [centroid_as_arrays_entries]
  simp only [List.find?, decide_eq_true_eq, reduceCtorEq, decide_True, decide_False]
  exact decode_serializeWith ArrayType.MZArray BinaryDataArrayType.Float64 (by decide)
    (fun p => leBytes 8 p.mz) (fun p => p.mz) (fun p => leBytes_length 8 p.mz) cs
    (fun p hp => by
      rw [fromLe_leBytes]
      exact Nat.mod_eq_of_lt (by
        have hb : ((256 : Nat) ^ 8) = 18446744073709551616 := by norm_num
        rw [hb]
        exact h p hp))

theorem centroid_as_arrays_intensities (cs : List CentroidPeak)
    (h : ∀ p ∈ cs, p.intensity < 4294967296) :
    (CentroidPeak.as_arrays cs).intensities = .ok (cs.map (fun p => p.intensity)) := by
  unfold BinaryArrayMap.intensities BinaryArrayMap.get
  rw [centroid_as_arrays_entries]
  simp only [List.find?, decide_eq_true_eq, reduceCtorEq, decide_True, decide_False]
  exact decode_serializeWith ArrayType.IntensityArray BinaryDataArrayType.Float32 (by decide)
    (fun p => leBytes 4 p.intensity) (fun p => p.intensity)
    (fun p => leBytes_length 4 p.intensity) cs
    (fun p hp => by
      rw [fromLe_leBytes]
      exact Nat.mod_eq_of_lt (by
        have hb : ((256 : Nat) ^ 4) = 4294967296 := by norm_num
        rw [hb]
        exact h p hp))

theorem deconvoluted_as_arrays_mzs (ds : List DeconvolutedPeak)
    (h : ∀ p ∈ ds, p.neutral_mass < 18446744073709551616) :
    (DeconvolutedPeak.as_arrays ds).mzs = .ok (ds.map (fun p => p.mz)) := by
  unfold BinaryArrayMap.mzs BinaryArrayMap.get
  rw [deconvoluted_as_arrays_entries]
  simp only [List.find?, decide_eq_true_eq, reduceCtorEq, decide_True, decide_False]
  exact decode_serializeWith ArrayType.MZArray BinaryDataArrayType.Float64 (by decide)
    (fun p => leBytes 8 p.mz) (fun p => p.mz) (fun p => leBytes_length 8 p.mz) ds
    (fun p hp => by
      rw [fromLe_leBytes]
      exact Nat.mod_eq_of_lt (by
        have hb : ((256 : Nat) ^ 8) = 18446744073709551616 := by norm_num
        rw [hb]
        exact mz_lt_of_neutral_mass_lt p (h p hp)))

theorem deconvoluted_as_arrays_intensities (ds : List DeconvolutedPeak)
    (h : ∀ p ∈ ds, p.intensity < 4294967296) :
    (DeconvolutedPeak.as_arrays ds).intensities = .ok (ds.map (fun p => p.intensity)) := by
  unfold BinaryArrayMap.intensities BinaryArrayMap.get
  rw [deconvoluted_as_arrays_entries]
  simp only [List.find?, decide_eq_true_eq, reduceCtorEq, decide_True, decide_False]
  exact decode_serializeWith ArrayType.IntensityArray BinaryDataArrayType.Float32 (by decide)
    (fun p => leBytes 4 p.intensity) (fun p => p.intensity)
    (fun p => leBytes_length 4 p.intensity) ds
    (fun p hp => by
      rw [fromLe_leBytes]
      exact Nat.mod_eq_of_lt (by
        have hb : ((256 : Nat) ^ 4) = 4294967296 := by norm_num
        rw [hb]
        exact h p hp))

theorem deconvoluted_as_arrays_charges (ds : List DeconvolutedPeak)
    (h : ∀ p ∈ ds, -2147483648 ≤ p.charge ∧ p.charge < 2147483648) :
    (DeconvolutedPeak.as_arrays ds).charges = .ok (ds.map (fun p => p.charge)) := by
  unfold BinaryArrayMap.charges BinaryArrayMap.get
  rw [deconvoluted_as_arrays_entries]
  simp only [List.find?, decide_eq_true_eq, reduceCtorEq, decide_True, decide_False]
  rw [decode_serializeWith ArrayType.ChargeArray BinaryDataArrayType.Int32 (by decide)
    (fun p => int32_le_bytes p.charge) (fun p => (p.charge % 4294967296).toNat)
    (fun p => int32_le_bytes_length p.charge) ds
    (fun p _ => fromLe_int32_le_bytes p.charge)]
  simp only [List.map_map]
  congr 1
  apply List.map_congr_left
  intro p hp
  simp only [Function.comp_apply, interpScalar]
  exact interpSigned_emod p.charge (h p hp).1 (h p hp).2

theorem centroid_reassemble (cs : List CentroidPeak)
    (hidx : ∀ i (h : i < cs.length), (cs.get ⟨i, h⟩).index = i % 4294967296) :
    ((cs.map (fun p => p.mz)).zip (cs.map (fun p => p.intensity))).enum.map
      (fun q => ({ mz := q.2.1, intensity := q.2.2, index := q.1 % 4294967296 } : CentroidPeak))
      = cs := by
  rw [List.zip_map', List.enum_map, List.map_map]
  apply List.ext_getElem
  · simp
  · intro i h1 h2
    simp only [List.getElem_map, List.getElem_enum, Function.comp_apply, Prod.map]
    have hx := hidx i h2
    rw [List.get_eq_getElem] at hx
    refine CentroidPeak.ext rfl rfl ?_
    exact hx.symm

theorem deconvoluted_reassemble (ds : List DeconvolutedPeak)
    (hidx : ∀ i (h : i < ds.length), (ds.get ⟨i, h⟩).index = i % 4294967296) :
    (((ds.map (fun p => p.mz)).zip (ds.map (fun p => p.intensity))).zip
        (ds.map (fun p => p.charge))).enum.map
      (fun q =>
        ({ neutral_mass := neutralMass q.2.1.1 q.2.2,
           intensity := q.2.1.2,
           charge := q.2.2,
           index := q.1 % 4294967296 } : DeconvolutedPeak))
      = ds := by
  rw [List.zip_map', List.zip_map', List.enum_map, List.map_map]
  apply List.ext_getElem
  · simp
  · intro i h1 h2
    simp only [List.getElem_map, List.getElem_enum, Function.comp_apply, Prod.map]
    have hx := hidx i h2
    rw [List.get_eq_getElem] at hx
    refine DeconvolutedPeak.ext (neutralMass_mz _) rfl rfl ?_
    exact hx.symm

/-- C4: for every centroid peak list and every deconvoluted peak list
whose fields lie within their declared element widths (f64 m/z or
neutral mass, f32 intensity, i32 charge) and whose indices equal their
zero-based positions reduced to u32, decoding the Array Map produced by
encoding the list yields exactly the original list. -/
theorem peak_roundtrip (cs : List CentroidPeak) (ds : List DeconvolutedPeak)
    (hc : ∀ p ∈ cs, p.mz < 18446744073709551616 ∧ p.intensity < 4294967296)
    (hcidx : ∀ i (h : i < cs.length), (cs.get ⟨i, h⟩).index = i % 4294967296)
    (hd : ∀ p ∈ ds, p.neutral_mass < 18446744073709551616 ∧ p.intensity < 4294967296 ∧
      -2147483648 ≤ p.charge ∧ p.charge < 2147483648)
    (hdidx : ∀ i (h : i < ds.length), (ds.get ⟨i, h⟩).index = i % 4294967296) :
    CentroidPeak.try_from_arrays (CentroidPeak.as_arrays cs) = .ok cs ∧
    DeconvolutedPeak.try_from_arrays (DeconvolutedPeak.as_arrays ds) = .ok ds := by
  constructor
  · unfold CentroidPeak.try_from_arrays
    rw [centroid_as_arrays_mzs cs (fun p hp => (hc p hp).1),
      centroid_as_arrays_intensities cs (fun p hp => (hc p hp).2)]
    exact congrArg Except.ok (centroid_reassemble cs hcidx)
  · unfold DeconvolutedPeak.try_from_arrays
    rw [deconvoluted_as_arrays_mzs ds (fun p hp => (hd p hp).1),
      deconvoluted_as_arrays_intensities ds (fun p hp => (hd p hp).2.1),
      deconvoluted_as_arrays_charges ds (fun p hp => ⟨(hd p hp).2.2.1, (hd p hp).2.2.2⟩)]
    exact congrArg Except.ok (deconvoluted_reassemble ds hdidx)

/-- Witness for peak_roundtrip at a concrete two-peak centroid list and
a concrete one-peak deconvoluted list. -/
theorem peak_roundtrip_witness :
    CentroidPeak.try_from_arrays (CentroidPeak.as_arrays
        [{ mz := 0x4059000000000000, intensity := 0x41200000, index := 0 },
         { mz := 0x4069000000000000, intensity := 0x41A00000, index := 1 }]) =
      .ok [{ mz := 0x4059000000000000, intensity := 0x41200000, index := 0 },
           { mz := 0x4069000000000000, intensity := 0x41A00000, index := 1 }] ∧
    DeconvolutedPeak.try_from_arrays (DeconvolutedPeak.as_arrays
        [{ neutral_mass := 0x4092C4DD2F1A9FBE, intensity := 0x41200000, charge := 2,
           index := 0 }]) =
      .ok [{ neutral_mass := 0x4092C4DD2F1A9FBE, intensity := 0x41200000, charge := 2,
             index := 0 }] :=
  peak_roundtrip
    [{ mz := 0x4059000000000000, intensity := 0x41200000, index := 0 },
     { mz := 0x4069000000000000, intensity := 0x41A00000, index := 1 }]
    [{ neutral_mass := 0x4092C4DD2F1A9FBE, intensity := 0x41200000, charge := 2, index := 0 }]
    (by decide) (by decide) (by decide) (by decide)

/-- C6: encoding a peak list produces an Array Map with exactly one
DataArray per exposed field, each tagged Decoded, with the declared
element types (f64 m/z, f32 intensity, i32 charge) and with bytes equal
to the little-endian serialization of the fields in peak order. -/
theorem as_arrays_layout (cs : List CentroidPeak) (ds : List DeconvolutedPeak) :
    (CentroidPeak.as_arrays cs).entries =
      [ { name := ArrayType.MZArray, dtype := BinaryDataArrayType.Float64,
          compression := BinaryCompressionType.Decoded,
          data := serializeWith (fun p => leBytes 8 p.mz) cs },
        { name := ArrayType.IntensityArray, dtype := BinaryDataArrayType.Float32,
          compression := BinaryCompressionType.Decoded,
          data := serializeWith (fun p => leBytes 4 p.intensity) cs } ] ∧
    (DeconvolutedPeak.as_arrays ds).entries =
      [ { name := ArrayType.MZArray, dtype := BinaryDataArrayType.Float64,
          compression := BinaryCompressionType.Decoded,
          data := serializeWith (fun p => leBytes 8 p.mz) ds },
        { name := ArrayType.IntensityArray, dtype := BinaryDataArrayType.Float32,
          compression := BinaryCompressionType.Decoded,
          data := serializeWith (fun p => leBytes 4 p.intensity) ds },
        { name := ArrayType.ChargeArray, dtype := BinaryDataArrayType.Int32,
          compression := BinaryCompressionType.Decoded,
          data := serializeWith (fun p => int32_le_bytes p.charge) ds } ] :=
  ⟨centroid_as_arrays_entries cs, deconvoluted_as_arrays_entries ds⟩

/-- An Array Map whose m/z array decodes to two f64 elements while its
intensity array decodes to a single f32 element (m/z 100.0 and 200.0,
intensity 10.0, as bit patterns). -/
def mismatchMap : BinaryArrayMap :=
  { entries :=
      [ { name := ArrayType.MZArray, dtype := BinaryDataArrayType.Float64,
          compression := BinaryCompressionType.Decoded,
          data := [0, 0, 0, 0, 0, 0, 0x59, 0x40, 0, 0, 0, 0, 0, 0, 0x69, 0x40] },
        { name := ArrayType.IntensityArray, dtype := BinaryDataArrayType.Float32,
          compression := BinaryCompressionType.Decoded,
          data := [0, 0, 0x20, 0x41] } ] }

/-- C1 counterexample: on an Array Map whose m/z and intensity arrays
decode to lengths 2 and 1, CentroidPeak::try_from_arrays does not fail
with a length-mismatch retrieval error: it returns a peak list,
truncated to the single aligned position. -/
theorem centroid_mismatch_counterexample :
    mismatchMap.mzs = .ok [0x4059000000000000, 0x4069000000000000] ∧
    mismatchMap.intensities = .ok [0x41200000] ∧
    CentroidPeak.try_from_arrays mismatchMap =
      .ok [{ mz := 0x4059000000000000, intensity := 0x41200000, index := 0 }] :=
  ⟨rfl, rfl, rfl⟩

/-- C1 amended: when both required arrays decode successfully,
CentroidPeak::try_from_arrays always succeeds and returns a peak list
whose length is the minimum of the two decoded lengths; a cross-array
length mismatch is silently truncated, not reported as an error. -/
theorem centroid_decode_truncates (m : BinaryArrayMap) (mzv iv : List Nat)
    (h1 : m.mzs = .ok mzv) (h2 : m.intensities = .ok iv) :
    Except.map List.length (CentroidPeak.try_from_arrays m) =
      .ok (min mzv.length iv.length) := by
  unfold CentroidPeak.try_from_arrays
  rw [h1, h2]
  simp [Except.map, List.enum_length]

/-- Witness for centroid_decode_truncates at the concrete mismatched
map: the decode succeeds with a single peak. -/
theorem centroid_decode_truncates_witness :
    Except.map List.length (CentroidPeak.try_from_arrays mismatchMap) = .ok (min 2 1) :=
  centroid_decode_truncates mismatchMap
    [0x4059000000000000, 0x4069000000000000] [0x41200000] rfl rfl

/-- An Array Map holding only an m/z array; both the intensity and the
charge arrays are absent. -/
def missingIntensityMap : BinaryArrayMap :=
  { entries :=
      [ { name := ArrayType.MZArray, dtype := BinaryDataArrayType.Float64,
          compression := BinaryCompressionType.Decoded,
          data := [0, 0, 0, 0, 0, 0, 0x59, 0x40] } ] }

/-- C9: on an Array Map lacking a required array, try_from_arrays
surfaces the failure as an error value, while the default from_arrays
method and the infallible From conversions panic (modelled as none). -/
theorem infallible_conversions_panic :
    CentroidPeak.try_from_arrays missingIntensityMap =
      .error (ArrayRetrievalError.NotFound ArrayType.IntensityArray) ∧
    DeconvolutedPeak.try_from_arrays missingIntensityMap =
      .error (ArrayRetrievalError.NotFound ArrayType.IntensityArray) ∧
    CentroidPeak.from_arrays missingIntensityMap = none ∧
    DeconvolutedPeak.from_arrays missingIntensityMap = none ∧
    centroidPeakSetFromMap missingIntensityMap = none ∧
    deconvolutedPeakSetFromMap missingIntensityMap = none :=
  ⟨rfl, rfl, rfl, rfl, rfl, rfl⟩

/-- An Array Map carrying all three arrays a deconvoluted peak decodes
from, produced by encoding one concrete deconvoluted peak. -/
def fullDeconvolutedMap : BinaryArrayMap :=
  DeconvolutedPeak.as_arrays
    [{ neutral_mass := 0x4092C4DD2F1A9FBE, intensity := 0x41200000, charge := 2,
       index := 0 }]

/-- C2 counterexample: even on an Array Map holding the m/z, intensity
and charge arrays, the DeconvolutedPeak pre-check reports
unknown-requirement, because its decode impl never overrides
arrays_required and the trait default is none. -/
theorem deconvoluted_has_arrays_for_counterexample :
    fullDeconvolutedMap.has_array ArrayType.MZArray = true ∧
    fullDeconvolutedMap.has_array ArrayType.IntensityArray = true ∧
    fullDeconvolutedMap.has_array ArrayType.ChargeArray = true ∧
    DeconvolutedPeak.has_arrays_for fullDeconvolutedMap = ArraysAvailable.Unknown :=
  ⟨rfl, rfl, rfl, rfl⟩

/-- C2 amended: the DeconvolutedPeak decode impl declares no required
array list (arrays_required keeps the trait default none), so its
pre-check reports Unknown for every Array Map; the m/z, intensity and
charge list is declared only on the encode side as arrays_included. -/
theorem deconvoluted_has_arrays_for_unknown (m : BinaryArrayMap) :
    DeconvolutedPeak.arrays_required = none ∧
    DeconvolutedPeak.has_arrays_for m = ArraysAvailable.Unknown ∧
    DeconvolutedPeak.arrays_included =
      some [ArrayType.MZArray, ArrayType.IntensityArray, ArrayType.ChargeArray] :=
  ⟨rfl, rfl, rfl⟩

/-- C5: the pre-check is a three-way result: Unknown exactly when the
peak type declares no static requirement list, Ok when every required
type is present in the map, and MissingArrays with the non-empty list of
absent required types otherwise. -/
theorem has_arrays_for_trichotomy (req : Option (List ArrayType)) (m : BinaryArrayMap) :
    (req = none → hasArraysForReq req m = ArraysAvailable.Unknown) ∧
    (hasArraysForReq req m = ArraysAvailable.Unknown → req = none) ∧
    (∀ l, req = some l → l.all (fun t => m.has_array t) = true →
      hasArraysForReq req m = ArraysAvailable.Ok) ∧
    (∀ l, req = some l → l.all (fun t => m.has_array t) = false →
      hasArraysForReq req m =
        ArraysAvailable.MissingArrays (l.filter (fun t => !(m.has_array t))) ∧
      l.filter (fun t => !(m.has_array t)) ≠ []) := by
  refine ⟨?_, ?_, ?_, ?_⟩
  · intro h
    subst h
    rfl
  · intro h
    cases req with
    | none => rfl
    | some l =>
        exfalso
        unfold hasArraysForReq at h
        by_cases hl : (l.filter (fun t => !(m.has_array t))).length > 0 <;>
          simp [hl] at h
  · intro l hreq hall
    subst hreq
    unfold hasArraysForReq
    have hnil : l.filter (fun t => !(m.has_array t)) = [] := by
      rw [List.filter_eq_nil_iff]
      intro t ht
      rw [List.all_eq_true] at hall
      simp [hall t ht]
    simp [hnil]
  · intro l hreq hall
    subst hreq
    unfold hasArraysForReq
    rw [List.all_eq_false] at hall
    obtain ⟨t, ht, hft⟩ := hall
    have hmem : t ∈ l.filter (fun t => !(m.has_array t)) := by
      rw [List.mem_filter]
      exact ⟨ht, by simpa using hft⟩
    have hne : l.filter (fun t => !(m.has_array t)) ≠ [] := by
      intro hcontra
      rw [hcontra] at hmem
      exact List.not_mem_nil t hmem
    have hlen : (l.filter (fun t => !(m.has_array t))).length > 0 :=
      List.length_pos.mpr hne
    simp [hlen, hne]

/-- Witness for has_arrays_for_trichotomy at a one-element requirement
list and the empty Array Map. -/
theorem has_arrays_for_trichotomy_witness :
    hasArraysForReq (some [ArrayType.MZArray]) BinaryArrayMap.new =
      ArraysAvailable.MissingArrays
        ([ArrayType.MZArray].filter
          (fun t => !(BinaryArrayMap.new.has_array t))) ∧
    [ArrayType.MZArray].filter (fun t => !(BinaryArrayMap.new.has_array t)) ≠ [] :=
  (has_arrays_for_trichotomy (some [ArrayType.MZArray]) BinaryArrayMap.new).2.2.2
    [ArrayType.MZArray] rfl rfl

/-- C8: every successful deconvoluted decode computes each peak's
neutral mass from that position's decoded (m/z, charge) pair; no stored
neutral-mass array takes part. -/
theorem deconvoluted_neutral_mass_derived (m : BinaryArrayMap)
    (ps : List DeconvolutedPeak)
    (h : DeconvolutedPeak.try_from_arrays m = .ok ps) :
    ∃ mzv : List Nat, ∃ chv : List Int,
      m.mzs = .ok mzv ∧ m.charges = .ok chv ∧
      ∀ i (hi : i < ps.length),
        (ps.get ⟨i, hi⟩).neutral_mass = neutralMass (mzv.getD i 0) (chv.getD i 0) := by
  unfold DeconvolutedPeak.try_from_arrays at h
  cases hmz : m.mzs with
  | error e => rw [hmz] at h; simp at h
  | ok mzv =>
      rw [hmz] at h
      cases hint : m.intensities with
      | error e => rw [hint] at h; simp at h
      | ok iv =>
          rw [hint] at h
          cases hch : m.charges with
          | error e => rw [hch] at h; simp at h
          | ok chv =>
              rw [hch] at h
              simp only [Except.ok.injEq] at h
              refine ⟨mzv, chv, rfl, rfl, ?_⟩
              intro i hi
              subst h
              have hlen : i < ((mzv.zip iv).zip chv).enum.length := by
                simpa using hi
              have hmzlen : i < mzv.length := by
                simp [List.enum_length, List.length_zip] at hlen
                omega
              have hchlen : i < chv.length := by
                simp [List.enum_length, List.length_zip] at hlen
                omega
              rw [List.get_eq_getElem]
              simp only [List.getElem_map, List.getElem_enum, List.getElem_zip]
              rw [List.getD_eq_getElem?_getD, List.getElem?_eq_getElem hmzlen,
                List.getD_eq_getElem?_getD, List.getElem?_eq_getElem hchlen]
              rfl

/-- Witness for deconvoluted_neutral_mass_derived at a concrete
one-peak encoded map. -/
theorem deconvoluted_neutral_mass_derived_witness :
    ∃ mzv : List Nat, ∃ chv : List Int,
      (DeconvolutedPeak.as_arrays
          [{ neutral_mass := 0x4092C4DD2F1A9FBE, intensity := 0x41200000, charge := 2,
             index := 0 }]).mzs = .ok mzv ∧
      (DeconvolutedPeak.as_arrays
          [{ neutral_mass := 0x4092C4DD2F1A9FBE, intensity := 0x41200000, charge := 2,
             index := 0 }]).charges = .ok chv ∧
      ∀ i (hi : i <
          ([{ neutral_mass := 0x4092C4DD2F1A9FBE, intensity := 0x41200000, charge := 2,
              index := 0 }] : List DeconvolutedPeak).length),
        (([{ neutral_mass := 0x4092C4DD2F1A9FBE, intensity := 0x41200000, charge := 2,
             index := 0 }] : List DeconvolutedPeak).get ⟨i, hi⟩).neutral_mass =
          neutralMass (mzv.getD i 0) (chv.getD i 0) :=
  deconvoluted_neutral_mass_derived _ _
    (peak_roundtrip []
      [{ neutral_mass := 0x4092C4DD2F1A9FBE, intensity := 0x41200000,
         charge := 2, index := 0 }]
      (by decide) (by decide) (by decide) (by decide)).2

/-- C10: every peak list successfully decoded from an Array Map gives
each peak an index below the list length (the index is the zero-based
position reduced to u32), for both supported peak types. -/
theorem decoded_index_bound :
    (∀ (m : BinaryArrayMap) (ps : List CentroidPeak),
        CentroidPeak.try_from_arrays m = .ok ps → ∀ p ∈ ps, p.index < ps.length) ∧
    (∀ (m : BinaryArrayMap) (ps : List DeconvolutedPeak),
        DeconvolutedPeak.try_from_arrays m = .ok ps → ∀ p ∈ ps, p.index < ps.length) := by
  constructor
  · intro m ps h p hp
    unfold CentroidPeak.try_from_arrays at h
    cases hmz : m.mzs with
    | error e => rw [hmz] at h; simp at h
    | ok mzv =>
        rw [hmz] at h
        cases hint : m.intensities with
        | error e => rw [hint] at h; simp at h
        | ok iv =>
            rw [hint] at h
            simp only [Except.ok.injEq] at h
            subst h
            rw [List.mem_iff_getElem] at hp
            obtain ⟨i, hi, hpi⟩ := hp
            have hi2 : i < (mzv.zip iv).enum.length := by simpa using hi
            rw [← hpi]
            simp only [List.getElem_map, List.getElem_enum]
            have : i % 4294967296 ≤ i := Nat.mod_le i 4294967296
            omega
  · intro m ps h p hp
    unfold DeconvolutedPeak.try_from_arrays at h
    cases hmz : m.mzs with
    | error e => rw [hmz] at h; simp at h
    | ok mzv =>
        rw [hmz] at h
        cases hint : m.intensities with
        | error e => rw [hint] at h; simp at h
        | ok iv =>
            rw [hint] at h
            cases hch : m.charges with
            | error e => rw [hch] at h; simp at h
            | ok chv =>
                rw [hch] at h
                simp only [Except.ok.injEq] at h
                subst h
                rw [List.mem_iff_getElem] at hp
                obtain ⟨i, hi, hpi⟩ := hp
                rw [← hpi]
                simp only [List.getElem_map, List.getElem_enum]
                have : i % 4294967296 ≤ i := Nat.mod_le i 4294967296
                omega

/-- Witness for decoded_index_bound at the concrete mismatched map. -/
theorem decoded_index_bound_witness :
    ∀ p ∈ [({ mz := 0x4059000000000000, intensity := 0x41200000, index := 0 } :
        CentroidPeak)],
      p.index < [({ mz := 0x4059000000000000, intensity := 0x41200000, index := 0 } :
        CentroidPeak)].length :=
  decoded_index_bound.1 mismatchMap
    [{ mz := 0x4059000000000000, intensity := 0x41200000, index := 0 }] rfl

theorem popKey_none_iff {α : Type} (k : Nat) :
    ∀ l : List (Nat × α), Collator.popKey k l = none ↔ k ∉ l.map Prod.fst := by
  intro l
  induction l with
  | nil => simp [Collator.popKey]
  | cons q rest ih =>
      obtain ⟨i, x⟩ := q
      by_cases h : i = k
      · subst h
        simp [Collator.popKey]
      · cases hpk : Collator.popKey k rest with
        | none =>
            simp [Collator.popKey, h, hpk, ih.mp hpk, Ne.symm h]
        | some pr =>
            have hk : k ∈ rest.map Prod.fst := by
              by_contra hmem
              rw [← ih] at hmem
              rw [hmem] at hpk
              cases hpk
            simp [Collator.popKey, h, hpk, hk]

theorem popKey_perm {α : Type} (k : Nat) :
    ∀ (l : List (Nat × α)) (y : α) (r : List (Nat × α)),
      Collator.popKey k l = some (y, r) → l.Perm ((k, y) :: r) := by
  intro l
  induction l with
  | nil => intro y r h; simp [Collator.popKey] at h
  | cons q rest ih =>
      intro y r h
      obtain ⟨i, x⟩ := q
      simp only [Collator.popKey] at h
      by_cases hik : i = k
      · subst hik
        rw [if_pos rfl] at h
        simp only [Option.some.injEq, Prod.mk.injEq] at h
        obtain ⟨hy, hr⟩ := h
        subst hy
        subst hr
        exact List.Perm.refl _
      · rw [if_neg hik] at h
        cases hpk : Collator.popKey k rest with
        | none => rw [hpk] at h; simp at h
        | some pr =>
            obtain ⟨y2, r2⟩ := pr
            rw [hpk] at h
            simp only [Option.some.injEq, Prod.mk.injEq] at h
            obtain ⟨hy, hr⟩ := h
            subst hy
            subst hr
            have hperm := ih y2 r2 hpk
            exact List.Perm.trans (List.Perm.cons (i, x) hperm)
              (List.Perm.swap (k, y2) (i, x) r2)

theorem drainAux_spec {α : Type} (x : Nat → α) :
    ∀ (fuel ne : Nat) (pending : List (Nat × α)),
      pending.length ≤ fuel →
      (∀ q ∈ pending, q.2 = x q.1) →
      (pending.map Prod.fst).Nodup →
      ∃ k pending2,
        Collator.drainAux fuel ne pending =
          ((List.range' ne k).map x, ne + k, pending2) ∧
        (∀ q ∈ pending2, q.2 = x q.1) ∧
        (pending2.map Prod.fst).Nodup ∧
        (ne + k) ∉ pending2.map Prod.fst ∧
        (∀ i, i ∈ pending2.map Prod.fst ↔
          (i ∈ pending.map Prod.fst ∧ ¬(ne ≤ i ∧ i < ne + k))) ∧
        (∀ i, ne ≤ i → i < ne + k → i ∈ pending.map Prod.fst) := by
  intro fuel
  induction fuel with
  | zero =>
      intro ne pending hlen hvals hnd
      have hnil : pending = [] := by
        rw [← List.length_eq_zero]
        omega
      subst hnil
      refine ⟨0, [], rfl, by simp, by simp, by simp, by simp, ?_⟩
      intro i h1 h2
      omega
  | succ fuel ih =>
      intro ne pending hlen hvals hnd
      cases hpk : Collator.popKey ne pending with
      | none =>
          refine ⟨0, pending, ?_, hvals, hnd, ?_, ?_, ?_⟩
          · simp [Collator.drainAux, hpk]
          · simpa using (popKey_none_iff ne pending).mp hpk
          · intro i
            constructor
            · intro hi
              exact ⟨hi, by omega⟩
            · intro hi
              exact hi.1
          · intro i h1 h2
            omega
      | some pr =>
          obtain ⟨y, rest⟩ := pr
          have hperm : pending.Perm ((ne, y) :: rest) := popKey_perm ne pending y rest hpk
          have hkeys : (pending.map Prod.fst).Perm (ne :: rest.map Prod.fst) := by
            simpa using hperm.map Prod.fst
          have hndc : (ne :: rest.map Prod.fst).Nodup := hkeys.nodup_iff.mp hnd
          have hnerest : ne ∉ rest.map Prod.fst := (List.nodup_cons.mp hndc).1
          have hndrest : (rest.map Prod.fst).Nodup := (List.nodup_cons.mp hndc).2
          have hlenrest : rest.length ≤ fuel := by
            have hpl := hperm.length_eq
            simp at hpl
            omega
          have hvalsrest : ∀ q ∈ rest, q.2 = x q.1 := by
            intro q hq
            exact hvals q (hperm.mem_iff.mpr (List.mem_cons_of_mem _ hq))
          have hy : y = x ne := by
            have hm := hvals (ne, y) (hperm.mem_iff.mpr (List.mem_cons_self _ _))
            simpa using hm
          obtain ⟨k, p2, heq, hv2, hnd2, hnotin2, hiff2, hcover2⟩ :=
            ih (ne + 1) rest hlenrest hvalsrest hndrest
          have harith : ne + (k + 1) = ne + 1 + k := by omega
          refine ⟨k + 1, p2, ?_, hv2, hnd2, ?_, ?_, ?_⟩
          · simp only [Collator.drainAux, hpk, heq]
            rw [List.range'_succ, List.map_cons, hy, harith]
          · rw [harith]
            exact hnotin2
          · intro i
            rw [hiff2 i]
            constructor
            · intro ⟨hirest, hrange⟩
              have hipend : i ∈ pending.map Prod.fst :=
                hkeys.mem_iff.mpr (List.mem_cons_of_mem _ hirest)
              have hine : i ≠ ne := fun hcon => hnerest (hcon ▸ hirest)
              exact ⟨hipend, by omega⟩
            · intro ⟨hipend, hrange⟩
              have hm := hkeys.mem_iff.mp hipend
              rcases List.mem_cons.mp hm with hie | hirest
              · exact absurd (by omega) hrange
              · exact ⟨hirest, by omega⟩
          · intro i h1 h2
            by_cases hie : i = ne
            · subst hie
              exact hkeys.mem_iff.mpr (List.mem_cons_self _ _)
            · have hm : i ∈ rest.map Prod.fst := hcover2 i (by omega) (by omega)
              exact hkeys.mem_iff.mpr (List.mem_cons_of_mem _ hm)

/-- The invariant tying a Collator state to the remaining input: pending
holds exactly the already-received indices at or above next_expected,
all indices of interest lie below n, values follow the item function x,
and keys are duplicate-free across pending and the remaining input. -/
def CollatorInv {α : Type} (n : Nat) (x : Nat → α) (s : CollatorState α)
    (rest : List (Nat × α)) : Prop :=
  (∀ q ∈ s.pending, q.2 = x q.1) ∧
  (s.pending.map Prod.fst).Nodup ∧
  (∀ q ∈ s.pending, s.next_expected < q.1 ∧ q.1 < n) ∧
  (∀ q ∈ rest, q.2 = x q.1) ∧
  (rest.map Prod.fst).Nodup ∧
  (∀ i, i ∈ s.pending.map Prod.fst → i ∉ rest.map Prod.fst) ∧
  (∀ i, (i ∈ s.pending.map Prod.fst ∨ i ∈ rest.map Prod.fst) ↔
    (s.next_expected ≤ i ∧ i < n)) ∧
  s.next_expected ≤ n

theorem run_spec {α : Type} (n : Nat) (x : Nat → α) :
    ∀ (rest : List (Nat × α)) (s : CollatorState α),
      CollatorInv n x s rest →
      Collator.run s rest =
        .ok (⟨n, []⟩, (List.range' s.next_expected (n - s.next_expected)).map x) := by
  intro rest
  induction rest with
  | nil =>
      intro s hinv
      obtain ⟨hv, hnd, hbnd, _, _, _, hcover, hnen⟩ := hinv
      have hne : s.next_expected = n := by
        by_contra hcon
        have hlt : s.next_expected < n := by omega
        have hm := (hcover s.next_expected).mpr ⟨Nat.le_refl _, hlt⟩
        rcases hm with hm | hm
        · obtain ⟨q, hq, hq1⟩ := List.mem_map.mp hm
          have hb := (hbnd q hq).1
          omega
        · simp at hm
      have hpend : s.pending = [] := by
        rw [List.eq_nil_iff_forall_not_mem]
        intro q hq
        have hb := (hbnd q hq).1
        have hm := (hcover q.1).mp (Or.inl (List.mem_map_of_mem Prod.fst hq))
        omega
      obtain ⟨ne0, p0⟩ := s
      dsimp only at hne hpend ⊢
      subst hne
      subst hpend
      simp [Collator.run]
  | cons hd rest2 ih =>
      intro s hinv
      obtain ⟨ix, it⟩ := hd
      obtain ⟨ne, pending⟩ := s
      obtain ⟨hv, hnd, hbnd, hvr, hndr, hdisj, hcover, hnen⟩ := hinv
      dsimp only at hv hnd hbnd hvr hndr hdisj hcover hnen ⊢
      have hit : it = x ix := hvr (ix, it) (List.mem_cons_self _ _)
      have hixbound : ne ≤ ix ∧ ix < n := (hcover ix).mp (Or.inr (by simp))
      have hixnotpend : ix ∉ pending.map Prod.fst :=
        fun hcon => hdisj ix hcon (by simp)
      have hndr2 : (rest2.map Prod.fst).Nodup := by
        simp only [List.map_cons] at hndr
        exact (List.nodup_cons.mp hndr).2
      have hixnotr2 : ix ∉ rest2.map Prod.fst := by
        simp only [List.map_cons] at hndr
        exact (List.nodup_cons.mp hndr).1
      have hvr2 : ∀ q ∈ rest2, q.2 = x q.1 :=
        fun q hq => hvr q (List.mem_cons_of_mem _ hq)
      by_cases hix : ix = ne
      case pos =>
        obtain ⟨k, p2, heq, hv2, hnd2, hnotin2, hiff2, hcover2⟩ :=
          drainAux_spec x pending.length (ne + 1) pending (Nat.le_refl _) hv hnd
        have hle : ne + 1 + k ≤ n := by
          by_cases hk0 : k = 0
          · omega
          · have hwin1 : ne + 1 ≤ ne + k := by omega
            have hwin2 : ne + k < ne + 1 + k := by omega
            have hp := hcover2 (ne + k) hwin1 hwin2
            obtain ⟨q0, hq0, hq01⟩ := List.mem_map.mp hp
            have hb := hbnd q0 hq0
            omega
        have hstep : Collator.step ⟨ne, pending⟩ ix it =
            .ok (⟨ne + 1 + k, p2⟩, it :: (List.range' (ne + 1) k).map x) := by
          dsimp only [Collator.step, Collator.drain]
          rw [if_pos hix, heq]
        have hinv2 : CollatorInv n x ⟨ne + 1 + k, p2⟩ rest2 := by
          refine ⟨hv2, hnd2, ?_, hvr2, hndr2, ?_, ?_, hle⟩
          · intro q hq
            have hkey : q.1 ∈ p2.map Prod.fst := List.mem_map_of_mem Prod.fst hq
            have hk2 := (hiff2 q.1).mp hkey
            obtain ⟨q0, hq0, hq01⟩ := List.mem_map.mp hk2.1
            have hb := hbnd q0 hq0
            have hne2 : q.1 ≠ ne + 1 + k := fun hcon => hnotin2 (hcon ▸ hkey)
            have hnw := hk2.2
            constructor
            · dsimp only
              omega
            · omega
          · intro i hip2 hir2
            have hk2 := (hiff2 i).mp hip2
            exact hdisj i hk2.1 (by simp [hir2])
          · intro i
            dsimp only
            constructor
            · intro hor
              rcases hor with hip2 | hir2
              · have hk2 := (hiff2 i).mp hip2
                obtain ⟨q0, hq0, hq01⟩ := List.mem_map.mp hk2.1
                have hb := hbnd q0 hq0
                have hnw := hk2.2
                constructor
                · omega
                · omega
              · have hcov := (hcover i).mp (Or.inr (by simp [hir2]))
                have hinei : i ≠ ix := fun hcon => hixnotr2 (hcon ▸ hir2)
                have hnotwin : ¬(ne + 1 ≤ i ∧ i < ne + 1 + k) := by
                  intro hwin
                  have hp := hcover2 i hwin.1 hwin.2
                  exact hdisj i hp (by simp [hir2])
                constructor
                · omega
                · exact hcov.2
            · intro hi
              have hcov := (hcover i).mpr ⟨by omega, hi.2⟩
              rcases hcov with hip | hir
              · left
                rw [hiff2 i]
                exact ⟨hip, by omega⟩
              · right
                rw [List.map_cons] at hir
                rcases List.mem_cons.mp hir with hie | hir2
                · exact absurd hie (by omega)
                · exact hir2
        have hrun2 := ih ⟨ne + 1 + k, p2⟩ hinv2
        dsimp only at hrun2
        have hlist : (it :: (List.range' (ne + 1) k).map x) ++
            (List.range' (ne + 1 + k) (n - (ne + 1 + k))).map x =
            (List.range' ne (n - ne)).map x := by
          rw [hit, hix, ← List.map_cons, ← List.range'_succ, ← List.map_append]
          have ha : ne + 1 + k = ne + (k + 1) := by omega
          rw [ha, List.range'_append_1]
          have hb : n - (ne + (k + 1)) + (k + 1) = n - ne := by omega
          rw [hb]
        simp only [Collator.run, hstep, hrun2]
        rw [hlist]
      case neg =>
        have hlt : ne < ix := by omega
        have hstep : Collator.step ⟨ne, pending⟩ ix it =
            .ok (⟨ne, (ix, it) :: pending⟩, []) := by
          dsimp only [Collator.step]
          rw [if_neg hix, if_pos hlt]
        have hinv2 : CollatorInv n x ⟨ne, (ix, it) :: pending⟩ rest2 := by
          refine ⟨?_, ?_, ?_, hvr2, hndr2, ?_, ?_, hnen⟩
          · intro q hq
            rcases List.mem_cons.mp hq with hq1 | hq2
            · rw [hq1]
              exact hit
            · exact hv q hq2
          · simp only [List.map_cons]
            exact List.nodup_cons.mpr ⟨hixnotpend, hnd⟩
          · intro q hq
            rcases List.mem_cons.mp hq with hq1 | hq2
            · rw [hq1]
              exact ⟨hlt, hixbound.2⟩
            · exact hbnd q hq2
          · intro i hip hir2
            simp only [List.map_cons, List.mem_cons] at hip
            rcases hip with hie | hip
            · exact hixnotr2 (hie ▸ hir2)
            · exact hdisj i hip (by simp [hir2])
          · intro i
            rw [← hcover i]
            simp only [List.map_cons, List.mem_cons]
            tauto
        have hrun2 := ih ⟨ne, (ix, it) :: pending⟩ hinv2
        dsimp only at hrun2
        simp only [Collator.run, hstep, hrun2]
        simp

/-- C3: for every n, every item assignment and every arrival permutation
of the pairs (0, x 0) .. (n-1, x (n-1)), the Collator emits exactly
x 0, x 1, ..., x (n-1) in strictly increasing index order. -/
theorem collator_perm_order {α : Type} (n : Nat) (x : Nat → α)
    (input : List (Nat × α))
    (h : input.Perm ((List.range n).map (fun i => (i, x i)))) :
    Collator.collate input = .ok ((List.range n).map x) := by
  have hkeys : (input.map Prod.fst).Perm (List.range n) := by
    have hmapped := h.map Prod.fst
    rw [List.map_map] at hmapped
    have hfun : (List.range n).map (Prod.fst ∘ fun i => (i, x i)) =
        (List.range n).map id := List.map_congr_left (fun a _ => rfl)
    rw [hfun, List.map_id] at hmapped
    exact hmapped
  have hinv : CollatorInv n x ⟨0, []⟩ input := by
    refine ⟨by simp, by simp, by simp, ?_, ?_, by simp, ?_, Nat.zero_le n⟩
    · intro q hq
      have hm := h.mem_iff.mp hq
      obtain ⟨i, _, hqe⟩ := List.mem_map.mp hm
      rw [← hqe]
    · exact hkeys.nodup_iff.mpr (List.nodup_range n)
    · intro i
      dsimp only
      simp only [List.map_nil, List.not_mem_nil, false_or]
      rw [hkeys.mem_iff]
      simp [List.mem_range]
  have hrun := run_spec n x input ⟨0, []⟩ hinv
  dsimp only at hrun
  unfold Collator.collate
  rw [hrun]
  simp [List.range_eq_range']

/-- Witness for collator_perm_order: the spec's concrete scenario, the
arrival order (2, c), (0, a), (1, b) emits a, b, c. -/
theorem collator_perm_order_witness :
    Collator.collate [(2, 20), (0, 0), (1, 10)] =
      .ok ((List.range 3).map (fun i => i * 10)) :=
  collator_perm_order 3 (fun i => i * 10) [(2, 20), (0, 0), (1, 10)]
    (List.isPerm_iff.mp (by decide))

/-- C7: an index below next_expected is a fatal consistency error, and
closing the input while the pending map is non-empty is an
incomplete-stream error: feeding only (1, b) yields the error, never the
item b alone. -/
theorem collator_error_handling :
    (∀ (s : CollatorState String) (index : Nat) (item : String),
        index < s.next_expected →
        Collator.step s index item = .error CollatorError.IndexBelowExpected) ∧
    Collator.collate [(1, "b")] =
      (.error CollatorError.IncompleteStream : Except CollatorError (List String)) := by
  constructor
  · intro s index item hlt
    unfold Collator.step
    rw [if_neg (by omega), if_neg (by omega)]
  · rfl

/-- Witness for collator_error_handling: a state expecting index 1
rejects a replayed index 0 as a consistency error. -/
theorem collator_error_handling_witness :
    Collator.step (⟨1, []⟩ : CollatorState String) 0 "z" =
      .error CollatorError.IndexBelowExpected :=
  collator_error_handling.1 ⟨1, []⟩ 0 "z" (by decide)
